import Mathlib

/-!
# Verification of the NovaBot knowledge-base scripts

Shallow embedding of the knowledge-base management scripts
(`scripts/manage_knowledge_base.py`, `process_knowledge_base.py`,
`process_web_documentation.py`, `fix_csv_encoding.py`) and proofs about them.

Python strings are modelled as `List Char` (with `String` wrappers at the
interface); Python dicts holding CSV rows are modelled as ordered association
lists, matching insertion order of `dict`.  Whitespace handling models the
ASCII whitespace characters recognised by Python's `str.strip` and the regex
class `\s` (the corpus content is ASCII).
-/

namespace NovaBot

/-- ASCII whitespace, as recognised by Python's `str.strip()` and `\s`. -/
def pyIsSpace (c : Char) : Bool :=
  c = ' ' || c = '\t' || c = '\n' || c = '\r' || c = '\x0b' || c = '\x0c'

/-- Left strip: drop leading whitespace. -/
def ltrim (s : List Char) : List Char := s.dropWhile pyIsSpace

/-- Right strip: drop trailing whitespace. -/
def rtrim (s : List Char) : List Char := (s.reverse.dropWhile pyIsSpace).reverse

/-- Python `str.strip()`. -/
def pyStrip (s : List Char) : List Char := rtrim (ltrim s)

/-- Python `str.lower()` (ASCII). -/
def pyLower (s : List Char) : List Char := s.map Char.toLower

/-- Python `str.upper()` (ASCII). -/
def pyUpper (s : List Char) : List Char := s.map Char.toUpper

/-- Python `s.split(',')`: split at every comma, keeping empty pieces;
the result is always nonempty (`''.split(',') == ['']`). -/
def splitComma : List Char → List (List Char)
  | [] => [[]]
  | c :: t =>
    if c = ',' then [] :: splitComma t
    else
      match splitComma t with
      | h :: r => (c :: h) :: r
      | [] => [[c]]

/-- Python `','.join(ts)`. -/
def joinComma : List (List Char) → List Char
  | [] => []
  | [t] => t
  | t :: rest => t ++ ',' :: joinComma rest

/-- Python substring containment `pat in s`. -/
def containsSub (pat : List Char) : List Char → Bool
  | [] => decide (pat = [])
  | s@(_ :: rest) => pat.isPrefixOf s || containsSub pat rest

/-- String-level `strip`. -/
def pyStripS (s : String) : String := ⟨pyStrip s.data⟩

/-- String-level `lower`. -/
def pyLowerS (s : String) : String := ⟨pyLower s.data⟩

/-! ## The Q&A entry: a CSV row as an ordered dict of string values

`Entry` models a Python dict mapping column names to string cell values, in
insertion order.  (Rows shorter than the header load with Python `None`
values, on which the integrity operations raise; the integrity theorems
quantify over string-valued entries, the state in which the tools operate.) -/

/-- A knowledge-base entry: ordered association list of field name/value. -/
def Entry : Type := List (String × String)

instance : DecidableEq Entry := by unfold Entry; infer_instance

/-- Python `entry.get(k, '')`. -/
def entryGetD : Entry → String → String
  | [], _ => ""
  | (k0, v0) :: t, k => if k0 = k then v0 else entryGetD t k

/-- Python `entry[k] = v`: replace the value in place if the key exists,
else append the key at the end (dict insertion order). -/
def entrySet : Entry → String → String → Entry
  | [], k, v => [(k, v)]
  | (k0, v0) :: t, k, v =>
    if k0 = k then (k0, v) :: t else (k0, v0) :: entrySet t k v

/-- The normalized question used as duplicate key:
`entry.get('question', '').strip().lower()`. -/
def normQ (e : Entry) : String := pyLowerS (pyStripS (entryGetD e "question"))

/-! ## Corpus Store (`KnowledgeBaseManager.load_csv_file` / `save_csv_file`)

A CSV file is modelled at the level of its logical lines: a header (list of
column names) plus data rows (lists of cells).  `csv.DictReader` turns each
row into a dict: header names zipped with the cells, names beyond the row's
length bound to Python `None` (`restval`), cells beyond the header's length
collected in a list under the `restkey` (`None`) key.  A cell value is
therefore `Option String` (`none` = Python `None`). -/

/-- A row as produced by `csv.DictReader`: the zipped fields plus the
optional `restkey` overflow list. -/
structure Row where
  fields : List (String × Option String)
  extra : Option (List String)
deriving DecidableEq, Repr

/-- `dict(zip(fieldnames, row))` followed by `restval` (`None`) padding for
missing cells. -/
def zipOptPad : List String → List String → List (String × Option String)
  | [], _ => []
  | k :: ks, [] => (k, none) :: zipOptPad ks []
  | k :: ks, v :: vs => (k, some v) :: zipOptPad ks vs

/-- `load_csv_file`, given the file's parsed lines (header and cell rows).
(Duplicate header names would collapse in a Python dict; headers here are
assumed duplicate-free, as every header the tools write is.) -/
def load_csv_file (header : List String) (rows : List (List String)) : List Row :=
  rows.map fun r =>
    { fields := zipOptPad header r
      extra := if header.length < r.length then some (r.drop header.length) else none }

/-- The five canonical field names, in the fixed order used on save. -/
def canonicalFields : List String := ["question", "answer", "category", "tags", "priority"]

/-- First value bound to key `k` in an association list. -/
def assocFind : List (String × Option String) → String → Option (Option String)
  | [], _ => none
  | (k0, v0) :: t, k => if k0 = k then some v0 else assocFind t k

/-- The cell text `csv.DictWriter` emits for field `k` of row `r`:
a missing key yields the writer's `restval` `''`; a Python `None` value is
written as the empty string. -/
def writtenCell (r : Row) (k : String) : String :=
  match assocFind r.fields k with
  | some (some v) => v
  | some none => ""
  | none => ""

/-- `DictWriter._dict_to_list`'s `wrong_fields` check: the row has a key
outside `fieldnames` (the `restkey` `None` key counts). -/
def rowHasWrongFields (r : Row) : Bool :=
  r.extra.isSome || r.fields.any fun p => !(canonicalFields.contains p.1)

/-- `DictWriter.writerow` for one entry: fails (raises `ValueError`) on any
key outside the canonical field names, else emits the canonical columns. -/
def dict_to_list (r : Row) : Option (List String) :=
  if rowHasWrongFields r then none else some (canonicalFields.map (writtenCell r))

/-- `DictWriter.writerows`: rows in order, aborting at the first failure. -/
def rowsOut : List Row → Option (List (List String))
  | [] => some []
  | r :: t =>
    match dict_to_list r, rowsOut t with
    | some x, some xs => some (x :: xs)
    | _, _ => none

/-- `save_csv_file`: the logical lines written on success (`none` = the save
raised and returned `False`).  The `if entries:` guard means an empty entry
list writes an empty file, with no header row. -/
def save_csv_file (entries : List Row) : Option (List (List String)) :=
  if entries = [] then some []
  else (rowsOut entries).map fun rows => canonicalFields :: rows

/-- `save_csv_file` after `load_csv_file`: the round-trip of one corpus. -/
def roundTripLines (header : List String) (rows : List (List String)) :
    Option (List (List String)) :=
  save_csv_file (load_csv_file header rows)

/-! ## Duplicate detection and removal
(`KnowledgeBaseManager.find_duplicates` / `remove_duplicates`)

The corpus set `all_entries` is the ordered dict filename ↦ entries.
Locations are recorded as `(filename, 1-based row index)` pairs, the parsed
form of the `f"{filename}:{idx}"` strings the script builds and later splits
on `':'` (the corpus filenames contain no `':'`). -/

/-- A corpus set: ordered dict from filename to its list of entries. -/
def CorpusSet : Type := List (String × List Entry)

instance : DecidableEq CorpusSet := by unfold CorpusSet; infer_instance

/-- `seen_questions[q].append(loc)` on a `defaultdict(list)`: append to the
existing group in place, or create a new group at the end. -/
def multiInsert (k : String) (loc : String × Nat) :
    List (String × List (String × Nat)) → List (String × List (String × Nat))
  | [] => [(k, [loc])]
  | (k0, ls) :: t =>
    if k0 = k then (k0, ls ++ [loc]) :: t else (k0, ls) :: multiInsert k loc t

/-- Record the locations of one corpus's entries, rows enumerated from 1;
entries whose normalized question is empty are not recorded. -/
def seenInFile (fname : String) (acc : List (String × List (String × Nat))) :
    List (Nat × Entry) → List (String × List (String × Nat))
  | [] => acc
  | (i, e) :: t =>
    seenInFile fname (if normQ e ≠ "" then multiInsert (normQ e) (fname, i) acc else acc) t

/-- The full `seen_questions` map, threading the accumulator through the
corpora in scan order. -/
def seenQuestionsList (acc : List (String × List (String × Nat))) :
    CorpusSet → List (String × List (String × Nat))
  | [] => acc
  | (fname, es) :: rest => seenQuestionsList (seenInFile fname acc (es.enumFrom 1)) rest

/-- `find_duplicates`: the groups with at least two locations, keyed by the
normalized question, in first-seen order. -/
def find_duplicates (corpora : CorpusSet) : List (String × List (String × Nat)) :=
  (seenQuestionsList [] corpora).filter fun g => 2 ≤ g.2.length

/-- `del all_entries[filename][row]`, guarded by
`filename in all_entries and 0 <= row < len(all_entries[filename])`. -/
def corporaDelete (st : CorpusSet) (f : String) (i : Nat) : CorpusSet :=
  st.map fun p => if p.1 = f ∧ i < p.2.length then (p.1, p.2.eraseIdx i) else p

/-- `remove_duplicates`: for each duplicate group, delete each location after
the first, converting the recorded 1-based row to a 0-based index.  In
dry-run mode nothing is deleted or saved.  Returns the final corpus state
(which is what gets persisted for every modified file). -/
def remove_duplicates (corpora : CorpusSet) (dryRun : Bool) : CorpusSet :=
  if dryRun then corpora
  else
    (find_duplicates corpora).foldl
      (fun st g => (g.2.drop 1).foldl (fun st loc => corporaDelete st loc.1 (loc.2 - 1)) st)
      corpora

/-! ## Merge (`KnowledgeBaseManager.merge_files`)

Modelled on the loaded entry lists of the source files (in order); the
result is the entry list written to the target corpus. -/

/-- The inner loop of `merge_files` over one source file's entries:
skip an entry whose normalized question was already seen (when duplicate
removal is on), else keep it and record its nonempty normalized question in
the `seen_questions` set. -/
def mergeSrc (rd : Bool) : List Entry → List String → List Entry × List String
  | [], seen => ([], seen)
  | e :: t, seen =>
    if rd ∧ normQ e ∈ seen then mergeSrc rd t seen
    else
      (e :: (mergeSrc rd t (if normQ e ≠ "" ∧ normQ e ∉ seen then normQ e :: seen else seen)).1,
        (mergeSrc rd t (if normQ e ≠ "" ∧ normQ e ∉ seen then normQ e :: seen else seen)).2)

/-- The outer loop of `merge_files` over the source files, threading the
`seen_questions` set. -/
def mergeFilesGo (rd : Bool) : List (List Entry) → List String → List Entry
  | [], _ => []
  | s :: rest, seen => (mergeSrc rd s seen).1 ++ mergeFilesGo rd rest (mergeSrc rd s seen).2

/-- `merge_files`: the merged entry list written to the target file. -/
def merge_files (srcs : List (List Entry)) (rd : Bool) : List Entry :=
  mergeFilesGo rd srcs []

/-- The merge semantics as the spec states it: walking the concatenation of
the sources in order, an entry is skipped exactly when its normalized
question is nonempty and some earlier entry has the same normalized
question (first occurrence wins). -/
def keepFirstSpec : List Entry → List Entry → List Entry
  | _, [] => []
  | prior, e :: t =>
    if normQ e ≠ "" ∧ (prior.any fun p => normQ p == normQ e) then
      keepFirstSpec (prior ++ [e]) t
    else e :: keepFirstSpec (prior ++ [e]) t

/-! ## Validation and repair (`KnowledgeBaseManager.validate_and_fix`)

The per-entry pass, in source order: default category, default priority,
invalid-priority rewrite (reading the possibly already-defaulted value),
tag cleanup.  In report mode (`fix=False`) the same conditions produce
issue records instead of mutations. -/

/-- The valid priority enum. -/
def validPriorities : List String := ["high", "medium", "low"]

/-- `','.join(tag.strip() for tag in tags_str.split(',') if tag.strip())`. -/
def cleanTags (s : List Char) : List Char :=
  joinComma (((splitComma s).map pyStrip).filter fun t => t ≠ [])

/-- String-level tag cleanup. -/
def cleanTagsS (s : String) : String := ⟨cleanTags s.data⟩

/-- Fix 1: empty (after strip) category defaults to `general`. -/
def fixCategory (e : Entry) : Entry :=
  if pyStripS (entryGetD e "category") = "" then entrySet e "category" "general" else e

/-- Fix 2: empty (after strip) priority defaults to `medium`. -/
def fixPriorityEmpty (e : Entry) : Entry :=
  if pyStripS (entryGetD e "priority") = "" then entrySet e "priority" "medium" else e

/-- Fix 3: a nonempty priority outside the enum (compared stripped and
lower-cased) is rewritten to `medium`. -/
def fixPriorityInvalid (e : Entry) : Entry :=
  if pyLowerS (pyStripS (entryGetD e "priority")) ≠ "" ∧
      pyLowerS (pyStripS (entryGetD e "priority")) ∉ validPriorities then
    entrySet e "priority" "medium"
  else e

/-- Fix 4: a nonempty (after strip) tags cell whose cleaned form differs
from its stripped form is replaced by the cleaned form. -/
def fixTags (e : Entry) : Entry :=
  if pyStripS (entryGetD e "tags") ≠ "" then
    (if cleanTagsS (pyStripS (entryGetD e "tags")) ≠ pyStripS (entryGetD e "tags") then
      entrySet e "tags" (cleanTagsS (pyStripS (entryGetD e "tags")))
    else e)
  else e

/-- The whole repair pass on one entry (`validate_and_fix` with `fix=True`). -/
def fixEntry (e : Entry) : Entry :=
  fixTags (fixPriorityInvalid (fixPriorityEmpty (fixCategory e)))

/-- Repair over a corpus set: every entry of every file is passed through
`fixEntry`; files on which some entry changed are re-saved with exactly
these entry values. -/
def validate_and_fix (corpora : CorpusSet) : CorpusSet :=
  corpora.map fun p => (p.1, p.2.map fixEntry)

/-- An error-level issue reported in report mode (`fix=False`). -/
inductive Issue where
  | missingCategory
  | missingPriority
  | invalidPriority (p : String)
  | malformedTags
deriving DecidableEq, Repr

/-- `validate_and_fix` with `fix=False` on one entry: the error-level issues
reported, in source order.  (No mutation happens in this mode, so every
check reads the original entry.) -/
def validateEntry (e : Entry) : List Issue :=
  (if pyStripS (entryGetD e "category") = "" then [Issue.missingCategory] else []) ++
  (if pyStripS (entryGetD e "priority") = "" then [Issue.missingPriority] else []) ++
  (let p := pyLowerS (pyStripS (entryGetD e "priority"))
   if p ≠ "" ∧ p ∉ validPriorities then [Issue.invalidPriority p] else []) ++
  (let ts := pyStripS (entryGetD e "tags")
   if ts ≠ "" ∧ cleanTagsS ts ≠ ts then [Issue.malformedTags] else [])

/-! ## Content Extractor (`process_knowledge_base.extract_structured_content`)

The four `re.search` calls are embedded with Python's backtracking
semantics, specialised to the patterns' shape
`LABEL \s* (CLASS-quantifier) (lookahead)?` under `IGNORECASE` (and
`DOTALL`, which affects only `.`):

* the search succeeds at the leftmost position where the whole pattern
  matches, so the literal label is tried occurrence by occurrence;
* greedy `\s*` first consumes the maximal whitespace run, giving characters
  back one at a time on failure of the rest;
* a lazy quantifier grows the capture one character at a time until the
  lookahead holds; `$` (no `MULTILINE`) holds at the end of the text or
  just before a final newline. -/

/-- Case-insensitive literal match at the start of `s` (ASCII `IGNORECASE`). -/
def ciIsPrefixOf : List Char → List Char → Bool
  | [], _ => true
  | _ :: _, [] => false
  | a :: l1, b :: l2 => a.toLower = b.toLower && ciIsPrefixOf l1 l2

/-- `$` without `MULTILINE`: end of text, or just before a final newline. -/
def lookEnd (u : List Char) : Bool := u = [] || u = ['\n']

/-- Lookahead `(?=Problem:|$)` (case-insensitive). -/
def lookProblem (u : List Char) : Bool := ciIsPrefixOf "Problem:".data u || lookEnd u

/-- Lookahead `(?=Resolution:|$)` (case-insensitive). -/
def lookResolution (u : List Char) : Bool := ciIsPrefixOf "Resolution:".data u || lookEnd u

/-- The class `[^\n\r]`. -/
def notNewline (c : Char) : Bool := c ≠ '\n' && c ≠ '\r'

/-- The class `.` under `DOTALL`. -/
def anyChar (_ : Char) : Bool := true

/-- Lazy `CLASS*?` up to a lookahead: the shortest prefix of `u` made of
`cls` characters after which `look` holds. -/
def lazyScan (cls : Char → Bool) (look : List Char → Bool) : List Char → Option (List Char)
  | [] => if look [] then some [] else none
  | u@(c :: rest) =>
    if look u then some []
    else if cls c then (lazyScan cls look rest).map (c :: ·) else none

/-- Backtracking of greedy `\s*` before a lazy capture: try the capture at
the current position, else give back one whitespace character (held in
`wsRev`, innermost first) and retry. -/
def backtrackScan (cls : Char → Bool) (look : List Char → Bool) :
    List Char → List Char → Option (List Char)
  | [], u => lazyScan cls look u
  | d :: wr, u => (lazyScan cls look u).orElse fun _ => backtrackScan cls look wr (d :: u)

/-- Greedy `CLASS+` at the current position: the maximal nonempty run of
`cls` characters, or failure. -/
def greedyPlusHere (cls : Char → Bool) : List Char → Option (List Char)
  | [] => none
  | c :: rest => if cls c then some (c :: rest.takeWhile cls) else none

/-- Greedy `CLASS+` after greedy `\s*` (the `Title:` pattern): the maximal
run of `cls` characters, backtracking `\s*` one character at a time when no
`cls` character is available. -/
def greedyPlusScan (cls : Char → Bool) : List Char → List Char → Option (List Char)
  | [], u => greedyPlusHere cls u
  | d :: wr, u => (greedyPlusHere cls u).orElse fun _ => greedyPlusScan cls wr (d :: u)

/-- Split off the maximal `\s*` run, then run the given capture scan. -/
def tailAfterWs (scan : List Char → List Char → Option (List Char)) (t : List Char) :
    Option (List Char) :=
  scan (t.takeWhile pyIsSpace).reverse (t.dropWhile pyIsSpace)

/-- `re.search` for a pattern starting with a literal label: try each
occurrence of the label from the left, returning the first position where
the rest of the pattern also matches. -/
def searchCI (lbl : List Char) (tailFn : List Char → Option (List Char)) :
    List Char → Option (List Char)
  | [] => if ciIsPrefixOf lbl [] then tailFn [] else none
  | t@(_ :: rest) =>
    match (if ciIsPrefixOf lbl t then tailFn (t.drop lbl.length) else none) with
    | some cap => some cap
    | none => searchCI lbl tailFn rest

/-- The result dict of `extract_structured_content` (constant fields
included). -/
structure ExtractedContent where
  title : String
  description : String
  problem : String
  resolution : String
  category : String
  tags : List String
  priority : String
deriving DecidableEq, Repr

/-- `extract_structured_content`:
`Title:\s*([^\n\r]+)`, `Description:\s*([^\n\r]*?)(?=Problem:|$)`,
`Problem:\s*(.*?)(?=Resolution:|$)`, `Resolution:\s*(.*?)$`, each group
stripped, a failed search leaving the field empty. -/
def extract_structured_content (content : String) : ExtractedContent :=
  let cs := content.data
  { title := ⟨pyStrip ((searchCI "Title:".data (tailAfterWs (greedyPlusScan notNewline)) cs).getD [])⟩
    description := ⟨pyStrip ((searchCI "Description:".data
      (tailAfterWs (backtrackScan notNewline lookProblem)) cs).getD [])⟩
    problem := ⟨pyStrip ((searchCI "Problem:".data
      (tailAfterWs (backtrackScan anyChar lookResolution)) cs).getD [])⟩
    resolution := ⟨pyStrip ((searchCI "Resolution:".data
      (tailAfterWs (backtrackScan anyChar lookEnd)) cs).getD [])⟩
    category := "datadog-mulesoft"
    tags := []
    priority := "medium" }

/-! ## Content classifier (`WebDocumentationProcessor.detect_content_type`) -/

/-- `detect_content_type`: first-match-wins keyword chain over the
upper-cased content. -/
def detect_content_type (content : String) : String :=
  let cu := pyUpper content.data
  if containsSub "OVERVIEW".data cu then "overview"
  else if containsSub "CONFIGURATION".data cu then "configuration"
  else if containsSub "INSTALLATION".data cu then "installation"
  else if containsSub "CONNECTOR".data cu then "connector"
  else if containsSub "INTEGRATION".data cu then "integration"
  else if containsSub "MONITOR".data cu then "monitoring"
  else if containsSub "DASHBOARD".data cu then "dashboard"
  else if containsSub "TROUBLESHOOT".data cu then "troubleshooting"
  else if containsSub "SYSTEM ARCHITECTURE".data cu then "architecture"
  else if containsSub "OOTB".data cu || containsSub "OUT OF THE BOX".data cu then "ootb-assets"
  else if containsSub "COST OPTIMIZATION".data cu then "cost-optimization"
  else "documentation"

/-! ## Character Normalizer (`CSVEncodingFixer`) -/

/-- The substitution table `character_replacements`, in insertion order.
Every key is a single (non-ASCII) character; every replacement is ASCII. -/
def character_replacements : List (Char × String) :=
  [ ('®', "(R)"), ('™', "(TM)"), ('©', "(C)"),
    ('‘', "'"), ('’', "'"), ('“', "\""), ('”', "\""),
    ('″', "\""), ('′', "'"),
    ('–', "-"), ('—', "-"), ('−', "-"),
    (' ', " "), (' ', " "), (' ', " "), (' ', " "),
    ('•', "*"), ('…', "..."), ('‐', "-"), ('‑', "-"),
    ('€', "EUR"), ('£', "GBP"), ('¥', "JPY") ]

/-- One change record of `fix_text` (rendered in the script as
`'{char}' (U+{code}) -> '{replacement}' ({count} occurrences)`). -/
structure ChangeRec where
  ch : Char
  repl : String
  occurrences : Nat
deriving DecidableEq, Repr

/-- `text.replace(k, v)` for a single-character needle. -/
def replaceChar (k : Char) (v : List Char) : List Char → List Char
  | [] => []
  | c :: t => (if c = k then v else [c]) ++ replaceChar k v t

/-- One iteration of the `fix_text` loop: if the problematic character
occurs, count it, replace every occurrence, and record the change. -/
def fixTextStep (acc : List Char × List ChangeRec) (p : Char × String) :
    List Char × List ChangeRec :=
  if p.1 ∈ acc.1 then
    (replaceChar p.1 p.2.data acc.1, acc.2 ++ [⟨p.1, p.2, acc.1.count p.1⟩])
  else acc

/-- `CSVEncodingFixer.fix_text`: empty input is returned unchanged with no
changes; otherwise the substitution table is applied in order. -/
def fix_text (t : List Char) : List Char × List ChangeRec :=
  if t = [] then (t, [])
  else character_replacements.foldl fixTextStep (t, [])

/-- String-level `fix_text`. -/
def fixTextS (s : String) : String × List ChangeRec :=
  ((⟨(fix_text s.data).1⟩ : String), (fix_text s.data).2)

/-! ## Lemmas: association-list dictionaries -/

theorem entryGetD_entrySet_same (e : Entry) (k v : String) :
    entryGetD (entrySet e k v) k = v := by
  induction e with
  | nil => simp [entrySet, entryGetD]
  | cons p t ih =>
    obtain ⟨k0, v0⟩ := p
    by_cases h : k0 = k
    · simp [entrySet, entryGetD, h]
    · simp [entrySet, entryGetD, h, ih]

theorem entryGetD_entrySet_ne (e : Entry) (k v k' : String) (h : k' ≠ k) :
    entryGetD (entrySet e k v) k' = entryGetD e k' := by
  have hks : k ≠ k' := fun hh => h hh.symm
  induction e with
  | nil => simp [entrySet, entryGetD, hks]
  | cons p t ih =>
    obtain ⟨k0, v0⟩ := p
    by_cases h0 : k0 = k
    · subst h0
      simp [entrySet, entryGetD, hks]
    · by_cases h1 : k0 = k'
      · simp [entrySet, entryGetD, h0, h1, h]
      · simp [entrySet, entryGetD, h0, h1, ih]

/-! ## Lemmas: Python `strip` -/

theorem dropWhile_dropWhile (p : Char → Bool) (l : List Char) :
    (l.dropWhile p).dropWhile p = l.dropWhile p := by
  induction l with
  | nil => simp
  | cons a t ih =>
    cases h : p a <;> simp [List.dropWhile_cons, h, ih]

theorem ltrim_ltrim (s : List Char) : ltrim (ltrim s) = ltrim s :=
  dropWhile_dropWhile pyIsSpace s

theorem rtrim_rtrim (s : List Char) : rtrim (rtrim s) = rtrim s := by
  unfold rtrim
  rw [List.reverse_reverse, dropWhile_dropWhile]

theorem ltrim_cons_of_neg {a : Char} (t : List Char) (h : pyIsSpace a = false) :
    ltrim (a :: t) = a :: t := by
  simp [ltrim, List.dropWhile_cons, h]

theorem rtrim_append_of_neg {a : Char} (t : List Char) (h : pyIsSpace a = false) :
    rtrim (t ++ [a]) = t ++ [a] := by
  simp [rtrim, List.dropWhile_cons, h]

theorem ltrim_fixed_structure {s : List Char} (hfix : ltrim s = s) (hne : s ≠ []) :
    ∃ a t, s = a :: t ∧ pyIsSpace a = false := by
  cases s with
  | nil => exact absurd rfl hne
  | cons a t =>
    refine ⟨a, t, rfl, ?_⟩
    by_contra h
    have ha : pyIsSpace a = true := by
      cases h' : pyIsSpace a
      · exact absurd h' h
      · rfl
    have h1 : ltrim (a :: t) = ltrim t := by simp [ltrim, List.dropWhile_cons, ha]
    have h2 : (ltrim t).length ≤ t.length := (List.dropWhile_sublist _).length_le
    rw [hfix] at h1
    have := congrArg List.length h1
    simp at this
    omega

theorem rtrim_fixed_structure {s : List Char} (hfix : rtrim s = s) (hne : s ≠ []) :
    ∃ t a, s = t ++ [a] ∧ pyIsSpace a = false := by
  have hrev : (s.reverse.dropWhile pyIsSpace) = s.reverse := by
    have := congrArg List.reverse hfix
    rwa [rtrim, List.reverse_reverse] at this
  have hne' : s.reverse ≠ [] := by simpa using hne
  obtain ⟨a, t, hst, ha⟩ := ltrim_fixed_structure (s := s.reverse) hrev hne'
  refine ⟨t.reverse, a, ?_, ha⟩
  have := congrArg List.reverse hst
  simpa using this

theorem rtrim_cons_cases (a : Char) (t : List Char) :
    rtrim (a :: t) = [] ∨ ∃ t', rtrim (a :: t) = a :: t' := by
  have main : ∀ xs : List Char, (xs ++ [a]).dropWhile pyIsSpace = [] ∨
      ∃ ys, (xs ++ [a]).dropWhile pyIsSpace = ys ++ [a] := by
    intro xs
    induction xs with
    | nil =>
      cases h : pyIsSpace a
      · exact Or.inr ⟨[], by simp [List.dropWhile_cons, h]⟩
      · exact Or.inl (by simp [List.dropWhile_cons, h])
    | cons x xs ih =>
      cases h : pyIsSpace x
      · exact Or.inr ⟨x :: xs, by simp [List.dropWhile_cons, h]⟩
      · simpa [List.dropWhile_cons, h] using ih
  rcases main t.reverse with h | ⟨ys, h⟩
  · left
    simp only [rtrim, List.reverse_cons]
    rw [h]
    rfl
  · right
    refine ⟨ys.reverse, ?_⟩
    simp only [rtrim, List.reverse_cons]
    rw [h]
    simp

theorem ltrim_rtrim_fixed {s : List Char} (h : ltrim s = s) : ltrim (rtrim s) = rtrim s := by
  cases s with
  | nil => simp [rtrim, ltrim]
  | cons a t =>
    have hsp : pyIsSpace a = false := by
      obtain ⟨a', t', ha, hsp⟩ := ltrim_fixed_structure h (by simp)
      rw [List.cons.injEq] at ha
      rw [ha.1]
      exact hsp
    rcases rtrim_cons_cases a t with h0 | ⟨t', h0⟩
    · simp [h0, ltrim]
    · rw [h0]
      exact ltrim_cons_of_neg _ hsp

theorem ltrim_append_of_neg {a : Char} (t : List Char) (h : pyIsSpace a = false) :
    ltrim (t ++ [a]) = ltrim t ++ [a] := by
  induction t with
  | nil => simp [ltrim, List.dropWhile_cons, h]
  | cons x xs ih =>
    cases hx : pyIsSpace x <;>
      simp_all [ltrim, List.dropWhile_cons, hx]

theorem rtrim_ltrim_fixed {s : List Char} (h : rtrim s = s) : rtrim (ltrim s) = ltrim s := by
  cases hs : s with
  | nil => simp [rtrim, ltrim]
  | cons a t =>
    subst hs
    obtain ⟨t', b, hst, hb⟩ := rtrim_fixed_structure h (by simp)
    rw [hst, ltrim_append_of_neg _ hb, rtrim_append_of_neg _ hb]

theorem pyStrip_idem (s : List Char) : pyStrip (pyStrip s) = pyStrip s := by
  unfold pyStrip
  rw [ltrim_rtrim_fixed (ltrim_ltrim s), rtrim_rtrim]

theorem pyStrip_fixed_of_ends {s : List Char} (a b : Char) (t t' : List Char)
    (h1 : s = a :: t) (h2 : s = t' ++ [b])
    (ha : pyIsSpace a = false) (hb : pyIsSpace b = false) : pyStrip s = s := by
  unfold pyStrip
  rw [h1, ltrim_cons_of_neg _ ha, ← h1, h2, rtrim_append_of_neg _ hb]

theorem pyStrip_sublist (s : List Char) : (pyStrip s).Sublist s := by
  unfold pyStrip rtrim ltrim
  have h1 : ((s.dropWhile pyIsSpace).reverse.dropWhile pyIsSpace).Sublist
      (s.dropWhile pyIsSpace).reverse := List.dropWhile_sublist _
  have h2 := h1.reverse
  rw [List.reverse_reverse] at h2
  exact h2.trans (List.dropWhile_sublist _)

theorem pyStrip_fixed_structure {s : List Char} (hfix : pyStrip s = s) (hne : s ≠ []) :
    (∃ a t, s = a :: t ∧ pyIsSpace a = false) ∧
    (∃ t b, s = t ++ [b] ∧ pyIsSpace b = false) := by
  have hsub1 : (rtrim (ltrim s)).Sublist (ltrim s) := by
    unfold rtrim
    have h1 : ((ltrim s).reverse.dropWhile pyIsSpace).Sublist (ltrim s).reverse :=
      List.dropWhile_sublist _
    have h2 := h1.reverse
    rwa [List.reverse_reverse] at h2
  have hsub2 : (ltrim s).Sublist s := List.dropWhile_sublist _
  have hps : pyStrip s = rtrim (ltrim s) := rfl
  have hlen : s.length ≤ (ltrim s).length := by
    have h1 : (rtrim (ltrim s)).length ≤ (ltrim s).length := hsub1.length_le
    rw [← hps, hfix] at h1
    exact h1
  have hl : ltrim s = s := hsub2.eq_of_length (le_antisymm hsub2.length_le hlen)
  have hr : rtrim s = s := by
    rw [hl] at hps
    rw [← hps]
    exact hfix
  exact ⟨ltrim_fixed_structure hl hne, rtrim_fixed_structure hr hne⟩

/-! ## Lemmas: comma splitting and tag cleanup -/

theorem splitComma_ne_nil (l : List Char) : splitComma l ≠ [] := by
  induction l with
  | nil => simp [splitComma]
  | cons c t ih =>
    by_cases hc : c = ','
    · simp [splitComma, hc]
    · simp only [splitComma, if_neg hc]
      obtain ⟨h, r, hr⟩ : ∃ h r, splitComma t = h :: r := by
        cases hs : splitComma t with
        | nil => exact absurd hs ih
        | cons h r => exact ⟨h, r, rfl⟩
      rw [hr]
      simp

theorem mem_splitComma_no_comma (l : List Char) : ∀ x ∈ splitComma l, ',' ∉ x := by
  induction l with
  | nil =>
    intro x hx
    simp [splitComma] at hx
    simp [hx]
  | cons c t ih =>
    intro x hx
    by_cases hc : c = ','
    · simp only [splitComma, if_pos hc, List.mem_cons] at hx
      rcases hx with rfl | hx
      · simp
      · exact ih x hx
    · obtain ⟨h, r, hr⟩ : ∃ h r, splitComma t = h :: r := by
        cases hs : splitComma t with
        | nil => exact absurd hs (splitComma_ne_nil t)
        | cons h r => exact ⟨h, r, rfl⟩
      simp only [splitComma, if_neg hc, hr, List.mem_cons] at hx
      rcases hx with rfl | hx
      · intro hmem
        rcases List.mem_cons.1 hmem with h1 | h1
        · exact hc h1.symm
        · exact ih h (by rw [hr]; exact List.mem_cons_self h r) h1
      · exact ih x (by rw [hr]; exact List.mem_cons_of_mem h hx)

theorem splitComma_eq_single {t : List Char} (h : ',' ∉ t) : splitComma t = [t] := by
  induction t with
  | nil => rfl
  | cons c u ih =>
    have hc : ¬c = ',' := fun hh => h (hh ▸ List.mem_cons_self c u)
    have h' : ',' ∉ u := fun hm => h (List.mem_cons_of_mem _ hm)
    simp only [splitComma, if_neg hc, ih h']

theorem splitComma_append {t u : List Char} (h : ',' ∉ t) :
    splitComma (t ++ ',' :: u) = t :: splitComma u := by
  induction t with
  | nil => simp [splitComma]
  | cons c t' ih =>
    have hc : ¬c = ',' := fun hh => h (hh ▸ List.mem_cons_self c t')
    have h' : ',' ∉ t' := fun hm => h (List.mem_cons_of_mem _ hm)
    simp only [List.cons_append, splitComma, if_neg hc, List.append_eq, ih h']

theorem joinComma_cons_of_ne {t : List Char} {L : List (List Char)} (h : L ≠ []) :
    joinComma (t :: L) = t ++ ',' :: joinComma L := by
  cases L with
  | nil => exact absurd rfl h
  | cons l0 ls => rfl

theorem splitComma_joinComma {ts : List (List Char)} (hne : ts ≠ [])
    (h : ∀ t ∈ ts, ',' ∉ t) : splitComma (joinComma ts) = ts := by
  induction ts with
  | nil => exact absurd rfl hne
  | cons t rest ih =>
    cases rest with
    | nil => simpa [joinComma] using splitComma_eq_single (h t (by simp))
    | cons t2 rest2 =>
      rw [joinComma_cons_of_ne (by simp), splitComma_append (h t (by simp)),
        ih (by simp) (fun x hx => h x (List.mem_cons_of_mem _ hx))]

theorem joinComma_cons_head (a : Char) (t' : List Char) (rest : List (List Char)) :
    ∃ z, joinComma ((a :: t') :: rest) = a :: z := by
  cases rest with
  | nil => exact ⟨t', rfl⟩
  | cons r rs => exact ⟨t' ++ ',' :: joinComma (r :: rs), rfl⟩

theorem joinComma_append_last (ts : List (List Char)) (z : List Char) (b : Char) :
    ∃ w, joinComma (ts ++ [z ++ [b]]) = w ++ [b] := by
  induction ts with
  | nil => exact ⟨z, rfl⟩
  | cons t rest ih =>
    obtain ⟨w, hw⟩ := ih
    rw [List.cons_append, joinComma_cons_of_ne (by simp)]
    exact ⟨t ++ ',' :: w, by rw [hw]; simp⟩

theorem pyStrip_joinComma {ts : List (List Char)} (hne : ts ≠ [])
    (hfix : ∀ t ∈ ts, pyStrip t = t ∧ t ≠ []) :
    pyStrip (joinComma ts) = joinComma ts := by
  obtain ⟨tok0, ts', rfl⟩ : ∃ tok0 ts', ts = tok0 :: ts' := by
    cases ts with
    | nil => exact absurd rfl hne
    | cons tok0 ts' => exact ⟨tok0, ts', rfl⟩
  obtain ⟨a, t0, htok, ha⟩ :=
    (pyStrip_fixed_structure (hfix tok0 (by simp)).1 (hfix tok0 (by simp)).2).1
  obtain ⟨z, hhead⟩ : ∃ z, joinComma (tok0 :: ts') = a :: z := by
    rw [htok]
    exact joinComma_cons_head a t0 ts'
  obtain ⟨init, lt, hconcat⟩ : ∃ init lt, tok0 :: ts' = init ++ [lt] := by
    rcases List.eq_nil_or_concat (tok0 :: ts') with hcon | ⟨L, b, hcon⟩
    · simp at hcon
    · exact ⟨L, b, by simpa [List.concat_eq_append] using hcon⟩
  have hltmem : lt ∈ tok0 :: ts' := by rw [hconcat]; simp
  obtain ⟨t3, b, hlt, hb⟩ :=
    (pyStrip_fixed_structure (hfix lt hltmem).1 (hfix lt hltmem).2).2
  obtain ⟨w, hlast⟩ : ∃ w, joinComma (tok0 :: ts') = w ++ [b] := by
    rw [hconcat, hlt]
    exact joinComma_append_last init t3 b
  exact pyStrip_fixed_of_ends a b z w hhead hlast ha hb

theorem cleanTags_token_facts (s : List Char) :
    ∀ t ∈ ((splitComma s).map pyStrip).filter (fun t => t ≠ []),
      pyStrip t = t ∧ t ≠ [] ∧ ',' ∉ t := by
  intro t ht
  rw [List.mem_filter] at ht
  obtain ⟨hmem, hne⟩ := ht
  rw [List.mem_map] at hmem
  obtain ⟨t0, ht0, rfl⟩ := hmem
  refine ⟨pyStrip_idem t0, by simpa using hne, ?_⟩
  intro hc
  exact mem_splitComma_no_comma s t0 ht0 ((pyStrip_sublist t0).subset hc)

theorem cleanTags_strip_fixed (s : List Char) : pyStrip (cleanTags s) = cleanTags s := by
  unfold cleanTags
  cases htk : ((splitComma s).map pyStrip).filter (fun t => t ≠ []) with
  | nil => rfl
  | cons t ts =>
    apply pyStrip_joinComma (by simp)
    intro x hx
    have hfact := cleanTags_token_facts s x (htk ▸ hx)
    exact ⟨hfact.1, hfact.2.1⟩

theorem cleanTags_idem (s : List Char) : cleanTags (cleanTags s) = cleanTags s := by
  have hfacts := cleanTags_token_facts s
  cases htk : ((splitComma s).map pyStrip).filter (fun t => t ≠ []) with
  | nil =>
    have h1 : cleanTags s = [] := by unfold cleanTags; rw [htk]; rfl
    rw [h1]
    rfl
  | cons t ts =>
    rw [htk] at hfacts
    have h1 : cleanTags s = joinComma (t :: ts) := by unfold cleanTags; rw [htk]
    have hsplit : splitComma (joinComma (t :: ts)) = t :: ts :=
      splitComma_joinComma (by simp) (fun x hx => (hfacts x hx).2.2)
    have hmap : (t :: ts).map pyStrip = t :: ts := by
      conv_rhs => rw [← List.map_id (t :: ts)]
      exact List.map_congr_left (fun x hx => (hfacts x hx).1)
    have hfilter : (t :: ts).filter (fun x => x ≠ []) = t :: ts :=
      List.filter_eq_self.mpr (fun x hx => by simp [(hfacts x hx).2.1])
    rw [h1]
    unfold cleanTags
    rw [hsplit, hmap, hfilter]

/-! ## Lemmas: the string-level wrappers -/

theorem pyStripS_idem (s : String) : pyStripS (pyStripS s) = pyStripS s :=
  congrArg String.mk (pyStrip_idem s.data)

theorem cleanTagsS_strip_fixed (s : String) : pyStripS (cleanTagsS s) = cleanTagsS s :=
  congrArg String.mk (cleanTags_strip_fixed s.data)

theorem cleanTagsS_idem (s : String) : cleanTagsS (cleanTagsS s) = cleanTagsS s :=
  congrArg String.mk (cleanTags_idem s.data)

theorem pyLowerS_eq_empty_iff (s : String) : pyLowerS s = "" ↔ s = "" := by
  constructor
  · intro hc
    rw [String.ext_iff] at hc ⊢
    exact List.map_eq_nil_iff.mp hc
  · intro h
    rw [h]
    rfl

/-! ## Lemmas: the repair pass -/

theorem getD_fixCategory_ne (e : Entry) (k : String) (h : k ≠ "category") :
    entryGetD (fixCategory e) k = entryGetD e k := by
  unfold fixCategory
  split
  · exact entryGetD_entrySet_ne e "category" "general" k h
  · rfl

theorem getD_fixPriorityEmpty_ne (e : Entry) (k : String) (h : k ≠ "priority") :
    entryGetD (fixPriorityEmpty e) k = entryGetD e k := by
  unfold fixPriorityEmpty
  split
  · exact entryGetD_entrySet_ne e "priority" "medium" k h
  · rfl

theorem getD_fixPriorityInvalid_ne (e : Entry) (k : String) (h : k ≠ "priority") :
    entryGetD (fixPriorityInvalid e) k = entryGetD e k := by
  unfold fixPriorityInvalid
  split
  · exact entryGetD_entrySet_ne e "priority" "medium" k h
  · rfl

theorem getD_fixTags_ne (e : Entry) (k : String) (h : k ≠ "tags") :
    entryGetD (fixTags e) k = entryGetD e k := by
  unfold fixTags
  split
  · split
    · exact entryGetD_entrySet_ne _ _ _ _ h
    · rfl
  · rfl

theorem getD_fixEntry_category (e : Entry) :
    entryGetD (fixEntry e) "category" =
      if pyStripS (entryGetD e "category") = "" then "general" else entryGetD e "category" := by
  unfold fixEntry
  rw [getD_fixTags_ne _ _ (by decide), getD_fixPriorityInvalid_ne _ _ (by decide),
    getD_fixPriorityEmpty_ne _ _ (by decide)]
  unfold fixCategory
  split
  next h => rw [entryGetD_entrySet_same]
  next h => rfl

theorem getD_fixEntry_priority (e : Entry) :
    entryGetD (fixEntry e) "priority" = "medium" ∨
      (entryGetD (fixEntry e) "priority" = entryGetD e "priority" ∧
        pyStripS (entryGetD e "priority") ≠ "" ∧
        pyLowerS (pyStripS (entryGetD e "priority")) ∈ validPriorities) := by
  unfold fixEntry
  rw [getD_fixTags_ne _ _ (by decide)]
  have hpres1 : entryGetD (fixCategory e) "priority" = entryGetD e "priority" :=
    getD_fixCategory_ne e _ (by decide)
  by_cases h2 : pyStripS (entryGetD (fixCategory e) "priority") = ""
  · have hv2 : entryGetD (fixPriorityEmpty (fixCategory e)) "priority" = "medium" := by
      unfold fixPriorityEmpty
      rw [if_pos h2, entryGetD_entrySet_same]
    left
    unfold fixPriorityInvalid
    rw [hv2, if_neg (by decide)]
    exact hv2
  · have he2 : fixPriorityEmpty (fixCategory e) = fixCategory e := by
      unfold fixPriorityEmpty
      rw [if_neg h2]
    rw [he2]
    by_cases h3 : pyLowerS (pyStripS (entryGetD (fixCategory e) "priority")) ≠ "" ∧
        pyLowerS (pyStripS (entryGetD (fixCategory e) "priority")) ∉ validPriorities
    · left
      unfold fixPriorityInvalid
      rw [if_pos h3, entryGetD_entrySet_same]
    · right
      have he3 : fixPriorityInvalid (fixCategory e) = fixCategory e := by
        unfold fixPriorityInvalid
        rw [if_neg h3]
      rw [he3, hpres1]
      refine ⟨rfl, ?_, ?_⟩
      · rw [← hpres1]
        exact h2
      · rw [← hpres1]
        by_cases h4 : pyLowerS (pyStripS (entryGetD (fixCategory e) "priority")) ∈ validPriorities
        · exact h4
        · exact absurd ⟨(pyLowerS_eq_empty_iff _).not.mpr h2, h4⟩ h3

theorem getD_fixEntry_tags (e : Entry) :
    (entryGetD (fixEntry e) "tags" = entryGetD e "tags" ∧
      (pyStripS (entryGetD e "tags") = "" ∨
        cleanTagsS (pyStripS (entryGetD e "tags")) = pyStripS (entryGetD e "tags"))) ∨
    entryGetD (fixEntry e) "tags" = cleanTagsS (pyStripS (entryGetD e "tags")) := by
  have hpres :
      entryGetD (fixPriorityInvalid (fixPriorityEmpty (fixCategory e))) "tags"
        = entryGetD e "tags" := by
    rw [getD_fixPriorityInvalid_ne _ _ (by decide), getD_fixPriorityEmpty_ne _ _ (by decide),
      getD_fixCategory_ne _ _ (by decide)]
  unfold fixEntry fixTags
  by_cases h1 : pyStripS (entryGetD (fixPriorityInvalid (fixPriorityEmpty (fixCategory e))) "tags") ≠ ""
  · rw [if_pos h1]
    by_cases h2 : cleanTagsS (pyStripS (entryGetD (fixPriorityInvalid (fixPriorityEmpty (fixCategory e))) "tags"))
        ≠ pyStripS (entryGetD (fixPriorityInvalid (fixPriorityEmpty (fixCategory e))) "tags")
    · rw [if_pos h2]
      right
      rw [entryGetD_entrySet_same, hpres]
    · rw [if_neg h2]
      left
      refine ⟨hpres, Or.inr ?_⟩
      rw [← hpres]
      exact not_ne_iff.mp h2
  · rw [if_neg h1]
    left
    refine ⟨hpres, Or.inl ?_⟩
    rw [← hpres]
    exact not_ne_iff.mp h1

theorem fixCategory_fixEntry (e : Entry) : fixCategory (fixEntry e) = fixEntry e := by
  have hne : pyStripS (entryGetD (fixEntry e) "category") ≠ "" := by
    rw [getD_fixEntry_category]
    by_cases h : pyStripS (entryGetD e "category") = ""
    · rw [if_pos h]
      decide
    · rw [if_neg h]
      exact h
  unfold fixCategory
  rw [if_neg hne]

theorem fixPriorityEmpty_fixEntry (e : Entry) : fixPriorityEmpty (fixEntry e) = fixEntry e := by
  have hne : pyStripS (entryGetD (fixEntry e) "priority") ≠ "" := by
    rcases getD_fixEntry_priority e with h | ⟨h, hne, _⟩
    · rw [h]
      decide
    · rw [h]
      exact hne
  unfold fixPriorityEmpty
  rw [if_neg hne]

theorem fixPriorityInvalid_fixEntry (e : Entry) : fixPriorityInvalid (fixEntry e) = fixEntry e := by
  have hcond : ¬(pyLowerS (pyStripS (entryGetD (fixEntry e) "priority")) ≠ "" ∧
      pyLowerS (pyStripS (entryGetD (fixEntry e) "priority")) ∉ validPriorities) := by
    rcases getD_fixEntry_priority e with h | ⟨h, _, hval⟩
    · rw [h]
      decide
    · rw [h]
      intro hc
      exact hc.2 hval
  unfold fixPriorityInvalid
  rw [if_neg hcond]

theorem fixTags_fixEntry (e : Entry) : fixTags (fixEntry e) = fixEntry e := by
  rcases getD_fixEntry_tags e with ⟨heq, hcase⟩ | hchanged
  · unfold fixTags
    rw [heq]
    rcases hcase with h0 | hfixp
    · rw [if_neg (not_ne_iff.mpr h0)]
    · by_cases h1 : pyStripS (entryGetD e "tags") = ""
      · rw [if_neg (not_ne_iff.mpr h1)]
      · rw [if_pos h1, if_neg (not_ne_iff.mpr hfixp)]
  · unfold fixTags
    rw [hchanged, cleanTagsS_strip_fixed]
    by_cases h1 : cleanTagsS (pyStripS (entryGetD e "tags")) = ""
    · rw [if_neg (not_ne_iff.mpr h1)]
    · rw [if_pos h1, if_neg (not_ne_iff.mpr (cleanTagsS_idem _))]

theorem fixEntry_idem (e : Entry) : fixEntry (fixEntry e) = fixEntry e := by
  have hdef : fixEntry (fixEntry e)
      = fixTags (fixPriorityInvalid (fixPriorityEmpty (fixCategory (fixEntry e)))) := rfl
  rw [hdef, fixCategory_fixEntry, fixPriorityEmpty_fixEntry, fixPriorityInvalid_fixEntry,
    fixTags_fixEntry]

theorem getD_fixEntry_question (e : Entry) :
    entryGetD (fixEntry e) "question" = entryGetD e "question" := by
  unfold fixEntry
  rw [getD_fixTags_ne _ _ (by decide), getD_fixPriorityInvalid_ne _ _ (by decide),
    getD_fixPriorityEmpty_ne _ _ (by decide), getD_fixCategory_ne _ _ (by decide)]

theorem getD_fixEntry_answer (e : Entry) :
    entryGetD (fixEntry e) "answer" = entryGetD e "answer" := by
  unfold fixEntry
  rw [getD_fixTags_ne _ _ (by decide), getD_fixPriorityInvalid_ne _ _ (by decide),
    getD_fixPriorityEmpty_ne _ _ (by decide), getD_fixCategory_ne _ _ (by decide)]

/-! ## Lemmas: merge versus its first-occurrence specification -/

theorem keepFirstSpec_append (l1 : List Entry) :
    ∀ (prior : List Entry) (l2 : List Entry),
      keepFirstSpec prior (l1 ++ l2)
        = keepFirstSpec prior l1 ++ keepFirstSpec (prior ++ l1) l2 := by
  induction l1 with
  | nil => intro prior l2; simp [keepFirstSpec]
  | cons e t ih =>
    intro prior l2
    simp only [List.cons_append, List.append_eq, keepFirstSpec]
    by_cases hc : normQ e ≠ "" ∧ (prior.any fun p => normQ p == normQ e) = true
    · rw [if_pos hc, if_pos hc, ih (prior ++ [e]) l2]
      simp
    · rw [if_neg hc, if_neg hc, ih (prior ++ [e]) l2]
      simp

theorem mergeSrc_spec (l : List Entry) :
    ∀ (prior : List Entry) (seen : List String),
      (∀ q, q ∈ seen ↔ (q ≠ "" ∧ ∃ p ∈ prior, normQ p = q)) →
      (mergeSrc true l seen).1 = keepFirstSpec prior l ∧
        (∀ q, q ∈ (mergeSrc true l seen).2 ↔ (q ≠ "" ∧ ∃ p ∈ prior ++ l, normQ p = q)) := by
  induction l with
  | nil =>
    intro prior seen hInv
    refine ⟨rfl, fun q => ?_⟩
    simpa using hInv q
  | cons e t ih =>
    intro prior seen hInv
    have anyIff : ∀ (pr : List Entry) (q : String),
        (pr.any fun p => normQ p == q) = true ↔ ∃ p ∈ pr, normQ p = q := by
      intro pr q
      simp [List.any_eq_true]
    by_cases hskip : normQ e ∈ seen
    · have hq := (hInv (normQ e)).mp hskip
      have hInv' : ∀ q, q ∈ seen ↔ (q ≠ "" ∧ ∃ p ∈ prior ++ [e], normQ p = q) := by
        intro q
        rw [hInv q]
        constructor
        · rintro ⟨h1, p, hp, h2⟩
          exact ⟨h1, p, List.mem_append_left _ hp, h2⟩
        · rintro ⟨h1, p, hp, h2⟩
          rcases List.mem_append.1 hp with hp | hp
          · exact ⟨h1, p, hp, h2⟩
          · rw [List.mem_singleton.1 hp] at h2
            rw [← h2]
            exact hq
      obtain ⟨ih1, ih2⟩ := ih (prior ++ [e]) seen hInv'
      have hstep : mergeSrc true (e :: t) seen = mergeSrc true t seen := by
        simp only [mergeSrc]
        rw [if_pos ⟨trivial, hskip⟩]
      have hspec : keepFirstSpec prior (e :: t) = keepFirstSpec (prior ++ [e]) t := by
        simp only [keepFirstSpec]
        rw [if_pos ⟨hq.1, (anyIff prior (normQ e)).mpr hq.2⟩]
      refine ⟨by rw [hstep, hspec, ← ih1], fun q => ?_⟩
      rw [hstep]
      rw [ih2 q]
      simp
    · have hcond : ¬(True ∧ normQ e ∈ seen) := fun hc => hskip hc.2
      have hnospec : ¬(normQ e ≠ "" ∧ (prior.any fun p => normQ p == normQ e) = true) := by
        rintro ⟨h1, h2⟩
        exact hskip ((hInv (normQ e)).mpr ⟨h1, (anyIff prior (normQ e)).mp h2⟩)
      by_cases hq : normQ e = ""
      · have hseen' : (if normQ e ≠ "" ∧ normQ e ∉ seen then normQ e :: seen else seen) = seen := by
          rw [if_neg (fun hc => hc.1 hq)]
        have hInv' : ∀ q, q ∈ seen ↔ (q ≠ "" ∧ ∃ p ∈ prior ++ [e], normQ p = q) := by
          intro q
          rw [hInv q]
          constructor
          · rintro ⟨h1, p, hp, h2⟩
            exact ⟨h1, p, List.mem_append_left _ hp, h2⟩
          · rintro ⟨h1, p, hp, h2⟩
            rcases List.mem_append.1 hp with hp | hp
            · exact ⟨h1, p, hp, h2⟩
            · rw [List.mem_singleton.1 hp] at h2
              rw [← h2, hq] at h1
              exact absurd rfl h1
        obtain ⟨ih1, ih2⟩ := ih (prior ++ [e]) seen hInv'
        have hstep1 : (mergeSrc true (e :: t) seen).1 = e :: (mergeSrc true t seen).1 := by
          simp only [mergeSrc]
          rw [if_neg hcond, hseen']
        have hstep2 : (mergeSrc true (e :: t) seen).2 = (mergeSrc true t seen).2 := by
          simp only [mergeSrc]
          rw [if_neg hcond, hseen']
        have hspec : keepFirstSpec prior (e :: t) = e :: keepFirstSpec (prior ++ [e]) t := by
          simp only [keepFirstSpec]
          rw [if_neg hnospec]
        refine ⟨by rw [hstep1, hspec, ih1], fun q => ?_⟩
        rw [hstep2, ih2 q]
        simp
      · have hseen' : (if normQ e ≠ "" ∧ normQ e ∉ seen then normQ e :: seen else seen)
            = normQ e :: seen := by
          rw [if_pos ⟨hq, hskip⟩]
        have hInv' : ∀ q, q ∈ normQ e :: seen ↔ (q ≠ "" ∧ ∃ p ∈ prior ++ [e], normQ p = q) := by
          intro q
          constructor
          · intro hmem
            rcases List.mem_cons.1 hmem with rfl | hmem
            · exact ⟨hq, e, by simp, rfl⟩
            · obtain ⟨h1, p, hp, h2⟩ := (hInv q).mp hmem
              exact ⟨h1, p, List.mem_append_left _ hp, h2⟩
          · rintro ⟨h1, p, hp, h2⟩
            rcases List.mem_append.1 hp with hp | hp
            · exact List.mem_cons_of_mem _ ((hInv q).mpr ⟨h1, p, hp, h2⟩)
            · rw [List.mem_singleton.1 hp] at h2
              rw [← h2]
              exact List.mem_cons_self _ _
        obtain ⟨ih1, ih2⟩ := ih (prior ++ [e]) (normQ e :: seen) hInv'
        have hstep1 : (mergeSrc true (e :: t) seen).1
            = e :: (mergeSrc true t (normQ e :: seen)).1 := by
          simp only [mergeSrc]
          rw [if_neg hcond, hseen']
        have hstep2 : (mergeSrc true (e :: t) seen).2
            = (mergeSrc true t (normQ e :: seen)).2 := by
          simp only [mergeSrc]
          rw [if_neg hcond, hseen']
        have hspec : keepFirstSpec prior (e :: t) = e :: keepFirstSpec (prior ++ [e]) t := by
          simp only [keepFirstSpec]
          rw [if_neg hnospec]
        refine ⟨by rw [hstep1, hspec, ih1], fun q => ?_⟩
        rw [hstep2, ih2 q]
        simp

theorem mergeFilesGo_spec (srcs : List (List Entry)) :
    ∀ (prior : List Entry) (seen : List String),
      (∀ q, q ∈ seen ↔ (q ≠ "" ∧ ∃ p ∈ prior, normQ p = q)) →
      mergeFilesGo true srcs seen = keepFirstSpec prior srcs.flatten := by
  induction srcs with
  | nil => intro prior seen _; rfl
  | cons s rest ih =>
    intro prior seen hInv
    obtain ⟨h1, h2⟩ := mergeSrc_spec s prior seen hInv
    simp only [mergeFilesGo, List.flatten_cons]
    rw [h1, keepFirstSpec_append]
    congr 1
    exact ih (prior ++ s) (mergeSrc true s seen).2 h2

theorem merge_files_eq_keepFirstSpec (srcs : List (List Entry)) :
    merge_files srcs true = keepFirstSpec [] srcs.flatten := by
  unfold merge_files
  exact mergeFilesGo_spec srcs [] [] (by simp)

theorem keepFirstSpec_filter_empty (l : List Entry) :
    ∀ prior : List Entry,
      (keepFirstSpec prior l).filter (fun e => normQ e == "")
        = l.filter (fun e => normQ e == "") := by
  induction l with
  | nil => intro prior; rfl
  | cons e t ih =>
    intro prior
    by_cases hc : normQ e ≠ "" ∧ (prior.any fun p => normQ p == normQ e) = true
    · have hpe : (normQ e == "") = false := by
        rw [beq_eq_false_iff_ne]
        exact hc.1
      simp only [keepFirstSpec, if_pos hc, List.filter_cons, hpe]
      rw [ih (prior ++ [e])]
      simp
    · simp only [keepFirstSpec, if_neg hc, List.filter_cons]
      rw [ih (prior ++ [e])]

/-! ## Lemmas: duplicate groups have nonempty keys -/

theorem multiInsert_keys_ne {k : String} (loc : String × Nat)
    (acc : List (String × List (String × Nat)))
    (hk : k ≠ "") (hacc : ∀ g ∈ acc, g.1 ≠ "") :
    ∀ g ∈ multiInsert k loc acc, g.1 ≠ "" := by
  induction acc with
  | nil =>
    intro g hg
    simp [multiInsert] at hg
    rw [hg]
    exact hk
  | cons p t ih =>
    intro g hg
    obtain ⟨k0, ls⟩ := p
    by_cases h0 : k0 = k
    · simp only [multiInsert, if_pos h0] at hg
      rcases List.mem_cons.1 hg with rfl | hgt
      · simpa [h0] using hk
      · exact hacc _ (List.mem_cons_of_mem _ hgt)
    · simp only [multiInsert, if_neg h0] at hg
      rcases List.mem_cons.1 hg with rfl | hgt
      · exact hacc (k0, ls) (by simp)
      · exact ih (fun g' hg' => hacc g' (List.mem_cons_of_mem _ hg')) g hgt

theorem seenInFile_keys_ne (fname : String) (l : List (Nat × Entry)) :
    ∀ acc, (∀ g ∈ acc, g.1 ≠ "") → ∀ g ∈ seenInFile fname acc l, g.1 ≠ "" := by
  induction l with
  | nil =>
    intro acc hacc g hg
    exact hacc g hg
  | cons ie t ih =>
    intro acc hacc g hg
    obtain ⟨i, e⟩ := ie
    simp only [seenInFile] at hg
    by_cases hq : normQ e ≠ ""
    · rw [if_pos hq] at hg
      exact ih _ (multiInsert_keys_ne _ acc hq hacc) g hg
    · rw [if_neg hq] at hg
      exact ih _ hacc g hg

theorem seenQuestionsList_keys_ne (corpora : CorpusSet) :
    ∀ acc, (∀ g ∈ acc, g.1 ≠ "") → ∀ g ∈ seenQuestionsList acc corpora, g.1 ≠ "" := by
  induction corpora with
  | nil =>
    intro acc hacc g hg
    exact hacc g hg
  | cons p rest ih =>
    intro acc hacc g hg
    obtain ⟨fname, es⟩ := p
    simp only [seenQuestionsList] at hg
    exact ih _ (seenInFile_keys_ne fname (es.enumFrom 1) acc hacc) g hg

theorem find_duplicates_keys_ne (corpora : CorpusSet) :
    ∀ g ∈ find_duplicates corpora, g.1 ≠ "" := by
  intro g hg
  unfold find_duplicates at hg
  exact seenQuestionsList_keys_ne corpora [] (by simp) g (List.mem_of_mem_filter hg)

/-! ## Lemmas: the character normalizer -/

theorem not_mem_replaceChar_self {k : Char} {v : List Char} (hkv : k ∉ v) :
    ∀ t, k ∉ replaceChar k v t := by
  intro t
  induction t with
  | nil => simp [replaceChar]
  | cons c t' ih =>
    simp only [replaceChar, List.mem_append]
    rintro (h1 | h2)
    · by_cases hc : c = k
      · rw [if_pos hc] at h1
        exact hkv h1
      · rw [if_neg hc] at h1
        exact hc (List.mem_singleton.1 h1).symm
    · exact ih h2

theorem not_mem_replaceChar_other {x k : Char} {v : List Char} (hxv : x ∉ v) :
    ∀ t, x ∉ t → x ∉ replaceChar k v t := by
  intro t
  induction t with
  | nil => simp [replaceChar]
  | cons c t' ih =>
    intro hx
    have hx1 : x ≠ c := fun hh => hx (hh ▸ List.mem_cons_self c t')
    have hx2 : x ∉ t' := fun hm => hx (List.mem_cons_of_mem _ hm)
    simp only [replaceChar, List.mem_append]
    rintro (h1 | h2)
    · by_cases hc : c = k
      · rw [if_pos hc] at h1
        exact hxv h1
      · rw [if_neg hc] at h1
        exact hx1 (List.mem_singleton.1 h1)
    · exact ih hx2 h2

theorem foldl_fixTextStep_not_mem (x : Char) :
    ∀ (l : List (Char × String)) (acc : List Char) (ch : List ChangeRec),
      x ∉ acc → (∀ p ∈ l, x ∉ p.2.data) →
      x ∉ (l.foldl fixTextStep (acc, ch)).1 := by
  intro l
  induction l with
  | nil =>
    intro acc ch hx _
    exact hx
  | cons p rest ih =>
    intro acc ch hx hl
    simp only [List.foldl_cons]
    have hstep : x ∉ (fixTextStep (acc, ch) p).1 := by
      by_cases hc : p.1 ∈ acc
      · simp only [fixTextStep, if_pos hc]
        exact not_mem_replaceChar_other (hl p (by simp)) acc hx
      · simp only [fixTextStep, if_neg hc]
        exact hx
    have hmain := ih (fixTextStep (acc, ch) p).1 (fixTextStep (acc, ch) p).2 hstep
      (fun q hq => hl q (List.mem_cons_of_mem _ hq))
    simpa using hmain

theorem foldl_fixTextStep_removes :
    ∀ (l : List (Char × String)) (acc : List Char) (ch : List ChangeRec),
      (∀ p ∈ l, ∀ q ∈ l, p.1 ∉ q.2.data) →
      ∀ p ∈ l, p.1 ∉ (l.foldl fixTextStep (acc, ch)).1 := by
  intro l
  induction l with
  | nil =>
    intro acc ch _ p hp
    simp at hp
  | cons p0 rest ih =>
    intro acc ch htab p hp
    simp only [List.foldl_cons]
    rcases List.mem_cons.1 hp with rfl | hpr
    · have hstep : p.1 ∉ (fixTextStep (acc, ch) p).1 := by
        by_cases hc : p.1 ∈ acc
        · simp only [fixTextStep, if_pos hc]
          exact not_mem_replaceChar_self (htab p (by simp) p (by simp)) acc
        · simp only [fixTextStep, if_neg hc]
          exact hc
      have hmain := foldl_fixTextStep_not_mem p.1 rest (fixTextStep (acc, ch) p).1
        (fixTextStep (acc, ch) p).2 hstep
        (fun q hq => htab p (by simp) q (List.mem_cons_of_mem _ hq))
      simpa using hmain
    · have hmain := ih (fixTextStep (acc, ch) p0).1 (fixTextStep (acc, ch) p0).2
        (fun a ha b hb => htab a (List.mem_cons_of_mem _ ha) b (List.mem_cons_of_mem _ hb)) p hpr
      simpa using hmain

theorem foldl_fixTextStep_id :
    ∀ (l : List (Char × String)) (acc : List Char) (ch : List ChangeRec),
      (∀ p ∈ l, p.1 ∉ acc) → l.foldl fixTextStep (acc, ch) = (acc, ch) := by
  intro l
  induction l with
  | nil =>
    intro acc ch _
    rfl
  | cons p rest ih =>
    intro acc ch h
    simp only [List.foldl_cons]
    have hstep : fixTextStep (acc, ch) p = (acc, ch) := by
      simp only [fixTextStep, if_neg (h p (by simp))]
    rw [hstep]
    exact ih acc ch (fun q hq => h q (List.mem_cons_of_mem _ hq))

theorem fix_text_no_keys (t : List Char) :
    ∀ p ∈ character_replacements, p.1 ∉ (fix_text t).1 := by
  intro p hp
  unfold fix_text
  by_cases ht : t = []
  · rw [if_pos ht]
    simp [ht]
  · rw [if_neg ht]
    exact foldl_fixTextStep_removes character_replacements t [] (by decide) p hp

theorem fix_text_idem (t : List Char) : fix_text (fix_text t).1 = ((fix_text t).1, []) := by
  have h1 : ∀ s : List Char, s = [] → fix_text s = (s, []) := by
    intro s hs
    unfold fix_text
    rw [if_pos hs]
  have h2 : ∀ s : List Char, s ≠ [] → (∀ p ∈ character_replacements, p.1 ∉ s) →
      fix_text s = (s, []) := by
    intro s hs hkeys
    unfold fix_text
    rw [if_neg hs]
    exact foldl_fixTextStep_id _ s [] hkeys
  by_cases ht2 : (fix_text t).1 = []
  · exact h1 _ ht2
  · exact h2 _ ht2 (fun p hp => fix_text_no_keys t p hp)

/-! ## Lemmas: the corpus store -/

theorem rowsOut_all_ok :
    ∀ entries : List Row, (∀ r ∈ entries, rowHasWrongFields r = false) →
      rowsOut entries = some (entries.map fun r => canonicalFields.map (writtenCell r)) := by
  intro entries
  induction entries with
  | nil =>
    intro
    rfl
  | cons r t ih =>
    intro h
    simp only [rowsOut]
    have hr : dict_to_list r = some (canonicalFields.map (writtenCell r)) := by
      unfold dict_to_list
      rw [h r (by simp)]
      simp
    rw [hr, ih (fun x hx => h x (List.mem_cons_of_mem _ hx))]
    rfl

theorem rowsOut_fail :
    ∀ (entries : List Row) (r : Row), r ∈ entries → rowHasWrongFields r = true →
      rowsOut entries = none := by
  intro entries
  induction entries with
  | nil =>
    intro r hr
    simp at hr
  | cons r0 t ih =>
    intro r hr hw
    simp only [rowsOut]
    rcases List.mem_cons.1 hr with rfl | hrt
    · have hnone : dict_to_list r = none := by
        unfold dict_to_list
        rw [hw]
        simp
      rw [hnone]
    · rw [ih r hrt hw]
      cases h2 : dict_to_list r0 <;> rfl

theorem dict_to_list_canon_row (a b c d e' : String) :
    dict_to_list ⟨zipOptPad canonicalFields [a, b, c, d, e'], none⟩
      = some [a, b, c, d, e'] := by
  rfl

theorem rowsOut_load_canon :
    ∀ rows : List (List String), (∀ r ∈ rows, r.length = 5) →
      rowsOut (load_csv_file canonicalFields rows) = some rows := by
  intro rows
  induction rows with
  | nil =>
    intro
    rfl
  | cons r t ih =>
    intro h
    have hr5 := h r (by simp)
    rcases r with _ | ⟨a, _ | ⟨b, _ | ⟨c, _ | ⟨d, _ | ⟨e', _ | ⟨f, rr⟩⟩⟩⟩⟩⟩ <;> simp at hr5
    simp only [load_csv_file, List.map_cons, rowsOut]
    have hextra : (if canonicalFields.length < ([a, b, c, d, e'] : List String).length
        then some (([a, b, c, d, e'] : List String).drop canonicalFields.length)
        else none) = none := by
      simp [canonicalFields]
    rw [hextra, dict_to_list_canon_row]
    have hrest := ih (fun x hx => h x (List.mem_cons_of_mem _ hx))
    unfold load_csv_file at hrest
    rw [hrest]

theorem fixTextS_idem (s : String) : fixTextS (fixTextS s).1 = ((fixTextS s).1, []) := by
  show ((⟨(fix_text (fix_text s.data).1).1⟩ : String), (fix_text (fix_text s.data).1).2)
      = ((⟨(fix_text s.data).1⟩ : String), ([] : List ChangeRec))
  rw [fix_text_idem]

theorem rowHasWrongFields_false {r : Row} (hx : r.extra = none)
    (hk : ∀ p ∈ r.fields, p.1 ∈ canonicalFields) : rowHasWrongFields r = false := by
  unfold rowHasWrongFields
  rw [hx]
  simp only [Option.isSome_none, Bool.false_or, List.any_eq_false]
  intro p hp
  have hm : canonicalFields.contains p.1 = true := List.elem_eq_true_of_mem (hk p hp)
  simp [hm, hk p hp]

theorem map_fixEntry_idem (l : List Entry) :
    List.map fixEntry (List.map fixEntry l) = List.map fixEntry l := by
  induction l with
  | nil => rfl
  | cons e t ih => simp only [List.map_cons, ih, fixEntry_idem]

theorem map_qa_fixEntry (l : List Entry) :
    List.map (fun e => (entryGetD e "question", entryGetD e "answer")) (List.map fixEntry l)
      = List.map (fun e => (entryGetD e "question", entryGetD e "answer")) l := by
  induction l with
  | nil => rfl
  | cons e t ih => simp only [List.map_cons, ih, getD_fixEntry_question, getD_fixEntry_answer]

/-! ## The claims -/

/-- C1 (amended): for a nonempty entry list all of whose fields lie in the
canonical set, `save_csv_file` writes the canonical five-name header in
fixed order followed by one row per entry in order, each row carrying
exactly the canonical columns (missing fields as the empty, writer-restval
cell); an entry with a field outside the canonical set makes the save fail
(`ValueError` from `DictWriter`) instead of dropping the field. -/
theorem c1_save_writes_canonical_header_or_fails :
    (∀ entries : List Row, entries ≠ [] →
      (∀ r ∈ entries, r.extra = none ∧ ∀ p ∈ r.fields, p.1 ∈ canonicalFields) →
      save_csv_file entries
        = some (canonicalFields :: entries.map fun r => canonicalFields.map (writtenCell r))) ∧
    (∀ (entries : List Row) (r : Row), r ∈ entries → rowHasWrongFields r = true →
      save_csv_file entries = none) := by
  constructor
  · intro entries hne h
    unfold save_csv_file
    rw [if_neg hne,
      rowsOut_all_ok entries (fun r hr => rowHasWrongFields_false (h r hr).1 (h r hr).2)]
    rfl
  · intro entries r hr hw
    unfold save_csv_file
    rw [if_neg (List.ne_nil_of_mem hr), rowsOut_fail entries r hr hw]
    rfl

/-- C1 witness: a concrete one-entry save (only the `question` field
present) succeeds with the canonical header and restval-padded row, and a
concrete entry with an extra `source` field makes the save fail. -/
theorem c1_save_witness :
    save_csv_file [⟨[("question", some "q")], none⟩]
      = some (canonicalFields ::
          [(⟨[("question", some "q")], none⟩ : Row)].map fun r =>
            canonicalFields.map (writtenCell r)) ∧
    save_csv_file [⟨[("question", some "q"), ("source", some "web")], none⟩] = none :=
  ⟨c1_save_writes_canonical_header_or_fails.1 _ (by decide) (by decide),
    c1_save_writes_canonical_header_or_fails.2 _
      ⟨[("question", some "q"), ("source", some "web")], none⟩ (by decide) (by decide)⟩

/-- C1 counterexample: the claim as stated is false — an empty entry list
produces an empty file with no header row, and an entry carrying a field
outside the canonical set makes the save fail (return `False`) rather than
succeeding with the field dropped. -/
theorem c1_save_counterexample :
    save_csv_file [] = some [] ∧
    save_csv_file
      [⟨[("question", some "q"), ("answer", some "a"), ("category", some "c"),
          ("tags", some "t"), ("priority", some "p"), ("extra", some "x")], none⟩]
      = none := by
  constructor
  · decide
  · decide

/-- C2: evaluating `remove_duplicates` in apply mode on a single corpus
holding three entries with the same question `x` (answers `1`, `2`, `3`).
The deletions are computed against the original 1-based row numbers but
applied to a list that shrinks in place: deleting row 2 succeeds, the
deletion of row 3 is then out of bounds and silently skipped, so the
first AND the third entry survive — not only the first occurrence, as the
claim (and the function's own docstring) state.  Dry-run mode leaves the
corpus untouched. -/
theorem c2_remove_duplicates_failing_input_eval :
    remove_duplicates
        [("a.csv", [[("question", "x"), ("answer", "1")],
                    [("question", "x"), ("answer", "2")],
                    [("question", "x"), ("answer", "3")]])] false
      = [("a.csv", [[("question", "x"), ("answer", "1")],
                    [("question", "x"), ("answer", "3")]])] ∧
    remove_duplicates
        [("a.csv", [[("question", "x"), ("answer", "1")],
                    [("question", "x"), ("answer", "2")],
                    [("question", "x"), ("answer", "3")]])] true
      = [("a.csv", [[("question", "x"), ("answer", "1")],
                    [("question", "x"), ("answer", "2")],
                    [("question", "x"), ("answer", "3")]])] := by
  constructor
  · decide
  · decide

/-- C3: evaluating the extractor on the claim's input
`"Title: X\nDescription: Y\nProblem: Z\nResolution: W"`.  The description
pattern `Description:\s*([^\n\r]*?)(?=Problem:|$)` cannot cross the newline
before `Problem:` (its capture class excludes newlines while the lookahead
sits on the next line), so the search fails and the description comes back
EMPTY, not `"Y"` as the claim states; title, problem and resolution do come
back as `X`, `Z`, `W`.  The second conjunct shows the same input with
`Problem:` on the description's own line, where the capture does reach the
lookahead and yields `"Y"` — isolating the newline as the failure cause. -/
theorem c3_extractor_failing_input_eval :
    extract_structured_content "Title: X\nDescription: Y\nProblem: Z\nResolution: W"
      = ⟨"X", "", "Z", "W", "datadog-mulesoft", [], "medium"⟩ ∧
    extract_structured_content "Title: X\nDescription: Y Problem: Z\nResolution: W"
      = ⟨"X", "Y", "Z", "W", "datadog-mulesoft", [], "medium"⟩ := by
  constructor
  · decide
  · decide

/-- C4 (amended): for a corpus whose header is the five canonical fields in
canonical order and which has at least one data row, every row of width
five, saving the loaded corpus reproduces the original corpus exactly. -/
theorem c4_roundtrip_canonical :
    ∀ rows : List (List String), rows ≠ [] → (∀ r ∈ rows, r.length = 5) →
      roundTripLines canonicalFields rows = some (canonicalFields :: rows) := by
  intro rows hne hlen
  unfold roundTripLines save_csv_file
  have hload : load_csv_file canonicalFields rows ≠ [] := by
    unfold load_csv_file
    simpa using hne
  rw [if_neg hload, rowsOut_load_canon rows hlen]
  rfl

/-- C4 witness: the round trip at a concrete one-row canonical corpus. -/
theorem c4_roundtrip_witness :
    roundTripLines canonicalFields [["q", "a", "c", "t", "p"]]
      = some (canonicalFields :: [["q", "a", "c", "t", "p"]]) :=
  c4_roundtrip_canonical [["q", "a", "c", "t", "p"]] (by decide) (by decide)

/-- C4 counterexample: the claim as stated is false — a header-only corpus
(entries vacuously canonical) collapses to an empty file because save
writes nothing for an empty entry list, and a corpus holding the five
canonical fields under a permuted header is rewritten into canonical
column order rather than reproduced. -/
theorem c4_roundtrip_counterexample :
    roundTripLines canonicalFields [] = some [] ∧
    roundTripLines canonicalFields [] ≠ some [canonicalFields] ∧
    roundTripLines ["answer", "question", "category", "tags", "priority"]
        [["A", "Q", "C", "T", "P"]]
      = some [canonicalFields, ["Q", "A", "C", "T", "P"]] ∧
    roundTripLines ["answer", "question", "category", "tags", "priority"]
        [["A", "Q", "C", "T", "P"]]
      ≠ some [["answer", "question", "category", "tags", "priority"],
              ["A", "Q", "C", "T", "P"]] := by
  refine ⟨by decide, by decide, by decide, by decide⟩

/-- C5: the repair pass is idempotent — on a whole corpus set and on every
single entry, a second pass changes nothing — and the first pass applies
exactly the stated defaults: an empty (after strip) category becomes
`general`; an empty or invalid priority becomes `medium`; a tags cell whose
split-strip-filter-rejoin differs from its stripped form is replaced by
that rejoined form.  An entry with priority `urgent` is reported by
validation as exactly one error (invalid priority) and rewritten by repair
to `medium`. -/
theorem c5_repair_idempotent_and_defaults :
    (∀ corpora : CorpusSet, validate_and_fix (validate_and_fix corpora)
        = validate_and_fix corpora) ∧
    (∀ e : Entry, fixEntry (fixEntry e) = fixEntry e) ∧
    (∀ e : Entry, pyStripS (entryGetD e "category") = "" →
      entryGetD (fixEntry e) "category" = "general") ∧
    (∀ e : Entry, pyStripS (entryGetD e "priority") = "" ∨
        pyLowerS (pyStripS (entryGetD e "priority")) ∉ validPriorities →
      entryGetD (fixEntry e) "priority" = "medium") ∧
    (∀ e : Entry, pyStripS (entryGetD e "tags") ≠ "" →
        cleanTagsS (pyStripS (entryGetD e "tags")) ≠ pyStripS (entryGetD e "tags") →
      entryGetD (fixEntry e) "tags" = cleanTagsS (pyStripS (entryGetD e "tags"))) ∧
    validateEntry [("question", "q"), ("answer", "a"), ("category", "c"),
        ("tags", "t"), ("priority", "urgent")] = [Issue.invalidPriority "urgent"] ∧
    entryGetD (fixEntry [("question", "q"), ("answer", "a"), ("category", "c"),
        ("tags", "t"), ("priority", "urgent")]) "priority" = "medium" := by
  refine ⟨?_, fixEntry_idem, ?_, ?_, ?_, by decide, by decide⟩
  · intro corpora
    unfold validate_and_fix
    rw [List.map_map]
    apply List.map_congr_left
    intro p _
    show (p.1, List.map fixEntry (List.map fixEntry p.2)) = (p.1, List.map fixEntry p.2)
    rw [map_fixEntry_idem]
  · intro e h
    rw [getD_fixEntry_category, if_pos h]
  · intro e h
    rcases getD_fixEntry_priority e with hm | ⟨_, hne, hval⟩
    · exact hm
    · rcases h with h | h
      · exact absurd h hne
      · exact absurd hval h
  · intro e h1 h2
    rcases getD_fixEntry_tags e with ⟨_, hcase⟩ | hchanged
    · rcases hcase with h | h
      · exact absurd h h1
      · exact absurd h h2
    · exact hchanged

/-- C5 witness: the repair defaults at concrete entries — a whitespace
category becomes `general`, priority `urgent` becomes `medium`, a tags cell
with a blank member is rejoined without it — and a doubly-repaired concrete
corpus equals its singly-repaired form. -/
theorem c5_repair_witness :
    entryGetD (fixEntry [("category", "  ")]) "category" = "general" ∧
    entryGetD (fixEntry [("priority", "urgent")]) "priority" = "medium" ∧
    entryGetD (fixEntry [("tags", "a, ,b")]) "tags" = cleanTagsS (pyStripS "a, ,b") ∧
    validate_and_fix (validate_and_fix [("kb.csv", [[("priority", "urgent")]])])
      = validate_and_fix [("kb.csv", [[("priority", "urgent")]])] :=
  ⟨c5_repair_idempotent_and_defaults.2.2.1 [("category", "  ")] (by decide),
    c5_repair_idempotent_and_defaults.2.2.2.1 [("priority", "urgent")] (Or.inr (by decide)),
    c5_repair_idempotent_and_defaults.2.2.2.2.1 [("tags", "a, ,b")] (by decide) (by decide),
    c5_repair_idempotent_and_defaults.1 [("kb.csv", [[("priority", "urgent")]])]⟩

/-- C6: merge with duplicate suppression walks the concatenation of the
source corpora in order and keeps an entry exactly when its normalized
question is empty or no earlier entry carries the same normalized question
(first occurrence wins); merging a 3-entry corpus A with a 2-entry corpus B
sharing one question (up to case and whitespace) yields exactly 4 entries. -/
theorem c6_merge_dedup_first_wins :
    (∀ srcs : List (List Entry), merge_files srcs true = keepFirstSpec [] srcs.flatten) ∧
    (merge_files
        [[[("question", "q1"), ("answer", "a1")],
          [("question", "q2"), ("answer", "a2")],
          [("question", "q3"), ("answer", "a3")]],
         [[("question", "Q2 "), ("answer", "b1")],
          [("question", "q4"), ("answer", "b2")]]] true).length = 4 := by
  exact ⟨merge_files_eq_keepFirstSpec, by decide⟩

/-- C7: the character normalizer is idempotent — normalizing the output of
a normalization returns it unchanged with an empty change list — and empty
input returns empty output with no changes. -/
theorem c7_normalizer_idempotent :
    (∀ s : String, fixTextS (fixTextS s).1 = ((fixTextS s).1, [])) ∧
    fixTextS "" = ("", []) := by
  exact ⟨fixTextS_idem, by decide⟩

/-- C8: content-type classification is first-match-wins in the fixed check
order: any text containing both an `OVERVIEW` and a `CONFIGURATION` marker
(case-insensitively, via the upper-cased text) classifies as `overview`,
because overview is tested first. -/
theorem c8_detect_content_type_overview_first :
    ∀ s : String, containsSub "OVERVIEW".data (pyUpper s.data) = true →
      containsSub "CONFIGURATION".data (pyUpper s.data) = true →
      detect_content_type s = "overview" := by
  intro s h1 _
  unfold detect_content_type
  simp [h1]

/-- C8 witness: a concrete text with both markers classifies as overview. -/
theorem c8_detect_witness :
    containsSub "OVERVIEW".data (pyUpper "An Overview of the Configuration".data) = true ∧
    containsSub "CONFIGURATION".data (pyUpper "An Overview of the Configuration".data) = true ∧
    detect_content_type "An Overview of the Configuration" = "overview" :=
  ⟨by decide, by decide,
    c8_detect_content_type_overview_first "An Overview of the Configuration"
      (by decide) (by decide)⟩

/-- C9: the repair pass never modifies the question or answer field: for
every entry (and hence every corpus set) the question and answer values
after `fixEntry` equal their values before it. -/
theorem c9_repair_preserves_question_answer :
    (∀ e : Entry, entryGetD (fixEntry e) "question" = entryGetD e "question" ∧
      entryGetD (fixEntry e) "answer" = entryGetD e "answer") ∧
    (∀ corpora : CorpusSet,
      (validate_and_fix corpora).map
          (fun p => (p.1, p.2.map fun e => (entryGetD e "question", entryGetD e "answer")))
        = corpora.map
          (fun p => (p.1, p.2.map fun e => (entryGetD e "question", entryGetD e "answer")))) := by
  constructor
  · intro e
    exact ⟨getD_fixEntry_question e, getD_fixEntry_answer e⟩
  · intro corpora
    unfold validate_and_fix
    rw [List.map_map]
    apply List.map_congr_left
    intro p _
    show (p.1, List.map (fun e => (entryGetD e "question", entryGetD e "answer"))
          (List.map fixEntry p.2))
        = (p.1, List.map (fun e => (entryGetD e "question", entryGetD e "answer")) p.2)
    rw [map_qa_fixEntry]

/-- C10: an entry whose question is empty after trimming is never treated
as a duplicate: every duplicate group's key (a normalized question) is
nonempty, and merge with duplicate suppression keeps every empty-question
entry — the merged output contains exactly the empty-question entries of
the concatenated sources. -/
theorem c10_empty_question_never_duplicate :
    (∀ corpora : CorpusSet, ∀ g ∈ find_duplicates corpora, g.1 ≠ "") ∧
    (∀ srcs : List (List Entry),
      (merge_files srcs true).filter (fun e => normQ e == "")
        = srcs.flatten.filter (fun e => normQ e == "")) := by
  constructor
  · exact find_duplicates_keys_ne
  · intro srcs
    rw [merge_files_eq_keepFirstSpec, keepFirstSpec_filter_empty]

/-- C10 witness: a concrete corpus with a real duplicate group — its key is
the nonempty normalized question `x` — and a concrete merge of two corpora
whose entries all have empty questions, in which nothing is suppressed. -/
theorem c10_empty_question_witness :
    (("x", [("a.csv", 1), ("a.csv", 2)])
        ∈ find_duplicates [("a.csv", [[("question", "x")], [("question", "x")]])] ∧
      ("x", ([("a.csv", 1), ("a.csv", 2)] : List (String × Nat))).1 ≠ "") ∧
    (merge_files [[[("question", "")], [("question", " ")]], [[("question", "")]]] true).filter
        (fun e => normQ e == "")
      = ([[[("question", "")], [("question", " ")]],
          [[("question", "")]]] : List (List Entry)).flatten.filter (fun e => normQ e == "") :=
  ⟨⟨by decide,
      c10_empty_question_never_duplicate.1
        [("a.csv", [[("question", "x")], [("question", "x")]])]
        ("x", [("a.csv", 1), ("a.csv", 2)]) (by decide)⟩,
    c10_empty_question_never_duplicate.2
      [[[("question", "")], [("question", " ")]], [[("question", "")]]]⟩

end NovaBot
